import Mathlib

/-!
Shallow embedding of the oopt-bot retrieval pipeline (`RAG.py`, `bot.py`).

Python strings are modelled as `String` / `List Char`, floating-point scores
as rationals `ℚ`, and the embedding geometry over the reals `ℝ`.  External
collaborators — the sentence-embedding model, the cross-encoder reranker and
the filesystem — appear as explicit parameters; the FAISS flat index, whose
contract is fixed, is modelled by an exact top-k search.
-/

/-- Python's default whitespace set, as used by `str.strip()` and
`str.split()` (ASCII subset; no claim exercises exotic Unicode spaces). -/
def pyIsSpace (c : Char) : Bool :=
  c = ' ' || c = '\t' || c = '\n' || c = '\r' || c = '\x0b' || c = '\x0c'

/-- ASCII case folding, the fragment of Python's `str.lower()` that the
claims exercise. -/
def lowerChar (c : Char) : Char :=
  if 'A' ≤ c && c ≤ 'Z' then Char.ofNat (c.toNat + 32) else c

/-- Lowered character data of a string (`s.lower()`). -/
def pyLower (s : String) : List Char := s.data.map lowerChar

/-- Whether the first list is an initial run of the second. -/
def leadEq : List Char → List Char → Bool
  | [], _ => true
  | _ :: _, [] => false
  | a :: as, b :: bs => a == b && leadEq as bs

/-- Contiguous-substring test: Python's `needle in hay` on strings. -/
def subIn (needle : List Char) : List Char → Bool
  | [] => leadEq needle []
  | c :: rest => leadEq needle (c :: rest) || subIn needle rest

/-- Case-insensitive containment `query.lower() in t.lower()`. -/
def pyIn (needle hay : String) : Bool := subIn (pyLower needle) (pyLower hay)

/-- Python slice `l[s:e]` for `0 ≤ s ≤ e`. -/
def listSlice (l : List Char) (s e : ℕ) : List Char := (l.drop s).take (e - s)

/-- Python `str.strip()`: drop leading and trailing whitespace. -/
def pyStrip (l : List Char) : List Char :=
  ((l.dropWhile pyIsSpace).reverse.dropWhile pyIsSpace).reverse

/-- Accumulator worker for `pyWords`. -/
def wordsAux : List Char → List Char → List (List Char)
  | [], acc => if acc.isEmpty then [] else [acc.reverse]
  | c :: rest, acc =>
    if pyIsSpace c then
      if acc.isEmpty then wordsAux rest [] else acc.reverse :: wordsAux rest []
    else wordsAux rest (c :: acc)

/-- Python `str.split()` with no arguments: maximal non-whitespace runs. -/
def pyWords (l : List Char) : List (List Char) := wordsAux l []

/-- Fuelled model of the `while start < L` loop of `chunk_text`
(`RAG.py` lines 28-40).  `none` means the fuel was exhausted, i.e. the loop
has not exited within `fuel` iterations; the source's
`start = max(0, end - overlap)` is the truncated subtraction `e - ov` on
`ℕ`. -/
def chunkTextLoop (text : List Char) (cs ov : ℕ) :
    ℕ → ℕ → Option (List (ℕ × ℕ × List Char))
  | 0, _ => none
  | fuel + 1, start =>
    if start < text.length then
      let e := min (start + cs) text.length
      let c := pyStrip (listSlice text start e)
      let tl :=
        if e = text.length then some [] else chunkTextLoop text cs ov fuel (e - ov)
      tl.map (fun rest => if c = [] then rest else (start, e, c) :: rest)
    else
      some []

/-- `chunk_text text cs ov`: when `ov < cs` the loop makes at most
`text.length` advances, so the default fuel `text.length + 1` recovers the
Python function's value whenever the loop terminates. -/
def chunkText (text : List Char) (cs ov : ℕ) : List (ℕ × ℕ × List Char) :=
  (chunkTextLoop text cs ov (text.length + 1) 0).getD []

/-- One row of the metadata store: the dict
`{"file": …, "start": …, "end": …, "idx": …}` written by `build_index`
(`RAG.py` line 57); `stop` stands for the Python key `"end"`. -/
structure Meta where
  file : String
  start : ℕ
  stop : ℕ
  idx : ℕ
  deriving DecidableEq

/-- Inner product of two rows, `ℚ`-valued. -/
def dot (a b : List ℚ) : ℚ := (List.zipWith (fun x y => x * y) a b).sum

/-- Inner product of the query against every stored row together with the
row id — what `faiss.IndexFlatIP.search` computes before selecting the
top `k`. -/
def scoreList (q : List ℚ) (db : List (List ℚ)) : List (ℚ × ℕ) :=
  (List.range db.length).map (fun i => (dot q (db.getD i []), i))

/-- Result order of the flat index: strictly larger score first, ties by
insertion order. -/
def searchOrd (a b : ℚ × ℕ) : Prop := b.1 < a.1 ∨ (a.1 = b.1 ∧ a.2 ≤ b.2)

instance : DecidableRel searchOrd := fun _ _ => inferInstanceAs (Decidable (_ ∨ _))

instance : IsTotal (ℚ × ℕ) searchOrd := by
  constructor
  intro a b
  rcases lt_trichotomy a.1 b.1 with h | h | h
  · exact Or.inr (Or.inl h)
  · rcases le_total a.2 b.2 with h2 | h2
    · exact Or.inl (Or.inr ⟨h, h2⟩)
    · exact Or.inr (Or.inr ⟨h.symm, h2⟩)
  · exact Or.inl (Or.inl h)

instance : IsTrans (ℚ × ℕ) searchOrd := by
  constructor
  intro a b c hab hbc
  rcases hab with h1 | ⟨e1, l1⟩ <;> rcases hbc with h2 | ⟨e2, l2⟩
  · exact Or.inl (h2.trans h1)
  · exact Or.inl (e2 ▸ h1)
  · exact Or.inl (e1 ▸ h2)
  · exact Or.inr ⟨e1.trans e2, l1.trans l2⟩

/-- Modelled from the spec: `faiss.IndexFlatIP.search` is external library
code whose documented contract is exact search — up to `k` results ordered by
descending inner product, ties broken by insertion order.  The `-1` padding
FAISS emits when `k` exceeds the index size is omitted because `retrieve`
discards padded rows (its `idx < 0` guard) before using them. -/
def faissSearch (db : List (List ℚ)) (q : List ℚ) (k : ℕ) : List (ℚ × ℕ) :=
  (List.insertionSort searchOrd (scoreList q db)).take k

/-- One element of the list `retrieve` returns:
`{"score": …, "text": …, "meta": …}`. -/
structure RetHit where
  score : ℚ
  text : String
  meta : Meta
  deriving DecidableEq

/-- `retrieve` (`RAG.py` lines 94-108): search the index with the already
encoded-and-normalized query vector `qv`, keep the hits whose score is not
below `0.5`. -/
def retrieve (qv : List ℚ) (db : List (List ℚ)) (texts : List String)
    (meta : List Meta) (topK : ℕ) : List RetHit :=
  (faissSearch db qv topK).filterMap (fun si =>
    if si.1 < 1/2 then none
    else some ⟨si.1, texts.getD si.2 "", meta.getD si.2 ⟨"", 0, 0, 0⟩⟩)

/-- One element of the merged list `rag_answer` returns: exact hits carry no
`"score"` key (`score = none`) and the sentinel `rerank = 999`; semantic hits
carry their similarity and their cross-encoder score. -/
structure Hit where
  meta : Meta
  text : String
  score : Option ℚ
  rerank : ℚ
  deriving DecidableEq

/-- Merge order of `rag_answer`: descending `rerank_score`. -/
def hitOrd (a b : Hit) : Prop := b.rerank ≤ a.rerank

instance : DecidableRel hitOrd := fun _ _ => inferInstanceAs (Decidable (_ ≤ _))

instance : IsTotal Hit hitOrd := ⟨fun a b => le_total b.rerank a.rerank⟩

instance : IsTrans Hit hitOrd := ⟨fun _ _ _ h1 h2 => le_trans h2 h1⟩

/-- Live path of `rag_answer` (`RAG.py` lines 139-161, 186): exact substring
scan over `zip(meta, texts)` with sentinel rerank score `999`, semantic
retrieval, cross-encoder rescoring of the retrieved hits, stable descending
merge, truncation to `top_k`.  The query embedding `qv`, the loaded index
rows `db` and the cross-encoder `rr` stand for the external models; Python's
stable `sorted(..., reverse=True)` is `insertionSort` with the total order
`hitOrd`, which places equal keys in their original order exactly as the
stable Python sort does. -/
def ragAnswer (query : String) (qv : List ℚ) (db : List (List ℚ))
    (meta : List Meta) (texts : List String) (rr : String → String → ℚ)
    (topK : ℕ) : List Hit :=
  let exact := (meta.zip texts).filterMap (fun mt =>
    if pyIn query mt.2 then some ⟨mt.1, mt.2, none, 999⟩ else none)
  let retrieved := retrieve qv db texts meta topK
  let rescored := retrieved.map
    (fun r => (⟨r.meta, r.text, some r.score, rr query r.text⟩ : Hit))
  (List.insertionSort hitOrd (exact ++ rescored)).take topK

/-- The one failure `load_index` can surface: a missing artifact
(`FileNotFoundError` from `open`, or `faiss.read_index` failing on a missing
path). -/
inductive LoadErr where
  | fileMissing
  deriving DecidableEq

/-- `load_index` (`RAG.py` lines 88-92): reading a missing artifact raises
(modelled: the corresponding `Option` is `none`); otherwise the two stores
are returned exactly as read, without any validation of their contents. -/
def loadIndex {α : Type} (indexFile : Option (List α))
    (metaFile : Option (List Meta × List String)) :
    Except LoadErr (List α × List Meta × List String) :=
  match indexFile with
  | none => .error .fileMissing
  | some idx =>
    match metaFile with
    | none => .error .fileMissing
    | some mt => .ok (idx, mt.1, mt.2)

/-- A source document as `build_index` sees it: `p.name`, `p.stem` and the
extracted text. -/
structure Doc where
  name : String
  stem : String
  text : String
  deriving DecidableEq

/-- Metadata rows and prefixed chunk texts accumulated by `build_index`
(`RAG.py` lines 43-58): each chunk of each document contributes one metadata
row `{file, start, end, idx}` and one text
`"Документ: <stem>. " ++ chunk`. -/
def buildIndexData (docs : List Doc) (cs ov : ℕ) : List Meta × List String :=
  docs.foldl (fun acc d =>
    (chunkText d.text.data cs ov).foldl (fun acc2 ck =>
      (acc2.1 ++ [⟨d.name, ck.1, ck.2.1, acc2.2.length⟩],
       acc2.2 ++ ["Документ: " ++ d.stem ++ ". " ++ String.mk ck.2.2]))
      acc)
    ([], [])

/-- Sum of squares of a real vector. -/
def sumSq (v : List ℝ) : ℝ := (v.map (fun x => x * x)).sum

/-- Euclidean norm of a real vector. -/
noncomputable def l2norm (v : List ℝ) : ℝ := Real.sqrt (sumSq v)

/-- `faiss.normalize_L2`: scale each row by the inverse of its norm, leaving
rows of norm zero unchanged (FAISS guards `nr > 0` before scaling). -/
noncomputable def normalizeL2 (v : List ℝ) : List ℝ :=
  if 0 < sumSq v then v.map (fun x => x / l2norm v) else v

/-- The rows `build_index` adds to the index (`RAG.py` lines 63-69): the raw
sentence embeddings of all chunk texts, L2-normalized. -/
noncomputable def buildVectors (embed : String → List ℝ) (texts : List String) :
    List (List ℝ) :=
  texts.map (fun t => normalizeL2 (embed t))

/-- The query vector `retrieve` searches with (`RAG.py` lines 96-98): the raw
sentence embedding of the query, L2-normalized. -/
noncomputable def queryVector (embed : String → List ℝ) (q : String) : List ℝ :=
  normalizeL2 (embed q)

/-- Persistence step of `build_index` (`RAG.py` lines 60-84): raises when no
chunks were produced, otherwise writes the FAISS index (the normalized
embedding rows) and the JSON metadata store `{"meta": …, "texts": …}`; each
written artifact is modelled as the value the later `load_index` reads. -/
noncomputable def buildIndexFiles (docs : List Doc) (cs ov : ℕ)
    (embed : String → List ℝ) :
    Except String (Option (List (List ℝ)) × Option (List Meta × List String)) :=
  let mt := buildIndexData docs cs ov
  if mt.2 = [] then .error "Нет docx или они пусты"
  else .ok (some (mt.2.map (fun t => normalizeL2 (embed t))), some (mt.1, mt.2))

/-- One document record of `SimpleDocumentSearch.documents`
(`bot.py` lines 99-104). -/
structure BotDoc where
  file : String
  path : String
  text : String
  size : ℕ
  deriving DecidableEq

/-- One result dict of `search_documents` (`bot.py` lines 140-146). -/
structure SearchResult where
  file : String
  path : String
  snippet : String
  fullText : String
  score : ℕ
  deriving DecidableEq

/-- Keyword list of `search_documents` (`bot.py` line 128): whitespace-split
words of the lowercased query that are longer than two characters,
repetitions kept exactly as in the source list comprehension. -/
def keywords (query : String) : List (List Char) :=
  (pyWords (pyLower query)).filter (fun w => 2 < w.length)

/-- Result order of `search_documents`: descending match count. -/
def resOrd (a b : SearchResult) : Prop := b.score ≤ a.score

instance : DecidableRel resOrd := fun _ _ => inferInstanceAs (Decidable (_ ≤ _))

instance : IsTotal SearchResult resOrd := ⟨fun a b => Nat.le_total b.score a.score⟩

instance : IsTrans SearchResult resOrd := ⟨fun _ _ _ h1 h2 => le_trans h2 h1⟩

/-- `SimpleDocumentSearch.search_documents` (`bot.py` lines 119-150).  The
snippet builder `extract_best_snippet` is abstracted as the parameter `snip`;
no claim depends on the snippet text.  Python's stable
`list.sort(reverse=True)` is the stable `insertionSort` with `resOrd`. -/
def searchDocuments (loaded : Bool) (documents : List BotDoc)
    (snip : String → List (List Char) → String) (query : String) :
    List SearchResult :=
  if !loaded || documents.isEmpty then []
  else
    let kws := keywords query
    let results := documents.filterMap (fun d =>
      let hitCount := (kws.filter (fun w => subIn w (pyLower d.text))).length
      if 0 < hitCount then
        some ⟨d.file, d.path, snip d.text kws, d.text, hitCount⟩
      else none)
    (List.insertionSort resOrd results).take 3

/-! Helper lemmas. -/

/-- An element of `l` at a valid position is a member of `l`. -/
theorem getD_mem_of_lt {α : Type} (l : List α) (i : ℕ) (d : α) (h : i < l.length) :
    l.getD i d ∈ l := by
  rw [List.getD_eq_getElem?_getD, List.getElem?_eq_getElem h]
  exact List.getElem_mem h

/-- Members of the FAISS search output are scored rows of the index. -/
theorem mem_faissSearch {db : List (List ℚ)} {q : List ℚ} {k : ℕ} {si : ℚ × ℕ}
    (h : si ∈ faissSearch db q k) : ∃ i < db.length, si = (dot q (db.getD i []), i) := by
  have h1 : si ∈ List.insertionSort searchOrd (scoreList q db) :=
    (List.take_sublist _ _).mem h
  have h2 : si ∈ scoreList q db := ((List.perm_insertionSort searchOrd _).mem_iff).1 h1
  simp only [scoreList, List.mem_map, List.mem_range] at h2
  obtain ⟨i, hi, hsi⟩ := h2
  exact ⟨i, hi, hsi.symm⟩

/-- Every scored row of the index appears in the full score list. -/
theorem scoreList_of_mem {db : List (List ℚ)} {q v : List ℚ} (h : v ∈ db) :
    ∃ i < db.length, db.getD i [] = v ∧ (dot q v, i) ∈ scoreList q db := by
  obtain ⟨⟨i, hi⟩, hg⟩ := List.mem_iff_get.1 h
  have hd : db.getD i [] = v := by
    rw [List.getD_eq_getElem?_getD, List.getElem?_eq_getElem hi]
    simpa [List.get_eq_getElem] using hg
  refine ⟨i, hi, hd, ?_⟩
  simp only [scoreList, List.mem_map, List.mem_range]
  exact ⟨i, hi, by rw [hd]⟩

/-- In a list pairwise-sorted by a key-monotone relation, the head carries
the largest key. -/
theorem pairwise_head_key_max {α : Type} (key : α → ℚ) (r : α → α → Prop)
    (hr : ∀ a b, r a b → key b ≤ key a) {h : α} {t : List α}
    (hs : List.Pairwise r (h :: t)) : ∀ x ∈ h :: t, key x ≤ key h := by
  intro x hx
  rcases List.mem_cons.mp hx with rfl | hx
  · exact le_refl _
  · exact hr _ _ ((List.pairwise_cons.mp hs).1 x hx)

/-- A `filterMap` that drops on a decidable test is a `filter` then `map`. -/
theorem filterMap_dropIf {α β : Type} (p : α → Prop) [DecidablePred p]
    (g : α → β) (l : List α) :
    (l.filterMap fun a => if p a then none else some (g a)) =
      (l.filter fun a => decide ¬ p a).map g := by
  induction l with
  | nil => rfl
  | cons x xs ih =>
    by_cases hx : p x <;>
      simp [List.filterMap_cons, List.filter_cons, hx, ih]

/-- A `filterMap` that keeps on a decidable test is a `filter` then `map`. -/
theorem filterMap_keepIf {α β : Type} (p : α → Prop) [DecidablePred p]
    (g : α → β) (l : List α) :
    (l.filterMap fun a => if p a then some (g a) else none) =
      (l.filter fun a => decide (p a)).map g := by
  induction l with
  | nil => rfl
  | cons x xs ih =>
    by_cases hx : p x <;>
      simp [List.filterMap_cons, List.filter_cons, hx, ih]

/-- A list whose strip is empty is all whitespace. -/
theorem pyStrip_eq_nil_all_space {l : List Char} (h : pyStrip l = []) :
    ∀ c ∈ l, pyIsSpace c = true := by
  intro c hc
  have h1 : (l.dropWhile pyIsSpace).reverse.dropWhile pyIsSpace = [] := by
    have := congrArg List.reverse h
    simpa [pyStrip] using this
  have h2 : ∀ x ∈ (l.dropWhile pyIsSpace).reverse, pyIsSpace x = true :=
    List.dropWhile_eq_nil_iff.1 h1
  have h3 : ∀ x ∈ l.dropWhile pyIsSpace, pyIsSpace x = true := by
    intro x hx
    exact h2 x (List.mem_reverse.2 hx)
  have h4 : c ∈ l.takeWhile pyIsSpace ++ l.dropWhile pyIsSpace := by
    rw [List.takeWhile_append_dropWhile]; exact hc
  rcases List.mem_append.1 h4 with h5 | h5
  · exact List.mem_takeWhile_imp h5
  · exact h3 c h5

/-- Stripping a list with no whitespace is the identity. -/
theorem pyStrip_id {l : List Char} (h : ∀ c ∈ l, pyIsSpace c = false) :
    pyStrip l = l := by
  have key : ∀ (m : List Char), (∀ c ∈ m, pyIsSpace c = false) →
      m.dropWhile pyIsSpace = m := by
    intro m hm
    cases m with
    | nil => rfl
    | cons a as =>
      rw [List.dropWhile_cons, hm a (List.mem_cons_self a as)]
      simp
  unfold pyStrip
  rw [key l h, key l.reverse (fun c hc => h c (List.mem_reverse.1 hc)), List.reverse_reverse]

/-- Length of a Python slice inside the list. -/
theorem listSlice_length {l : List Char} {s e : ℕ} (he : e ≤ l.length) :
    (listSlice l s e).length = e - s := by
  simp [listSlice, List.length_take, List.length_drop]
  omega

/-- A position inside a slice's span yields a member of the slice. -/
theorem getD_mem_listSlice {l : List Char} {s e i : ℕ}
    (h1 : s ≤ i) (h2 : i < e) (h3 : e ≤ l.length) :
    l.getD i ' ' ∈ listSlice l s e := by
  have hi : i < l.length := lt_of_lt_of_le h2 h3
  have hq : (listSlice l s e)[i - s]? = l[i]? := by
    unfold listSlice
    rw [List.getElem?_take]
    rw [if_pos (by omega)]
    rw [List.getElem?_drop]
    congr 1
    omega
  have hlen : i - s < (listSlice l s e).length := by
    rw [listSlice_length h3]; omega
  have : (listSlice l s e)[i - s] = l.getD i ' ' := by
    have := hq
    rw [List.getElem?_eq_getElem hlen, List.getElem?_eq_getElem hi] at this
    rw [List.getD_eq_getElem?_getD, List.getElem?_eq_getElem hi]
    simpa using this
  rw [← this]
  exact List.getElem_mem hlen

/-! Claim theorems. -/

/-- C3: `chunk_text` has no check of `overlap < chunk_size`; on
`text = "ab"`, `chunk_size = 1`, `overlap = 1` the loop's window never
reaches the end of the text and `start` never advances, so the loop does not
exit within any number of iterations — the code loops forever instead of
failing with a configuration error. -/
theorem chunkText_overlap_ge_size_loops_forever :
    ∀ fuel, chunkTextLoop ['a', 'b'] 1 1 fuel 0 = none := by
  intro fuel
  induction fuel with
  | zero => rfl
  | succ n ih =>
    simp only [chunkTextLoop]
    norm_num
    rw [ih]

/-- C4 counterexample: `load_index` returns successfully from mismatched
artifacts — here a vector store of two rows next to a metadata store with a
single entry — because it performs no validation at all. -/
theorem loadIndex_accepts_mismatched_stores :
    loadIndex (some [[(1 : ℚ)], [2]]) (some ([⟨"f", 0, 1, 0⟩], ["t"])) =
      .ok ([[(1 : ℚ)], [2]], [⟨"f", 0, 1, 0⟩], ["t"]) ∧
    ([[(1 : ℚ)], [2]] : List (List ℚ)).length ≠
      ([⟨"f", 0, 1, 0⟩] : List Meta).length := by
  exact ⟨rfl, by decide⟩

/-- C4 (amended): `load_index` fails with the missing-file error when either
artifact is absent, but it validates nothing: whenever both artifacts are
readable it returns them as-is, including mismatched ones. -/
theorem loadIndex_missing_and_no_validation {α : Type}
    (indexFile : Option (List α)) (metaFile : Option (List Meta × List String)) :
    (indexFile = none ∨ metaFile = none →
      loadIndex indexFile metaFile = .error .fileMissing) ∧
    (∀ (v : List α) (m : List Meta) (t : List String),
      loadIndex (some v) (some (m, t)) = .ok (v, m, t)) := by
  constructor
  · rintro (rfl | rfl)
    · rfl
    · cases indexFile <;> rfl
  · intro v m t
    rfl

/-- C4 witness: the missing-artifact branch at a concrete input. -/
theorem loadIndex_missing_and_no_validation_witness :
    ((none : Option (List (List ℚ))) = none ∨
      (some (([], []) : List Meta × List String)) = none) ∧
    loadIndex (none : Option (List (List ℚ))) (some ([], [])) =
      .error .fileMissing :=
  ⟨Or.inl rfl,
    (loadIndex_missing_and_no_validation none (some ([], []))).1 (Or.inl rfl)⟩

/-- C6 counterexample: a whitespace-only text shorter than `chunk_size`
yields zero chunks, not exactly one chunk equal to the trimmed text. -/
theorem chunkText_whitespace_short_text_empty :
    chunkText [' '] 2 0 = [] ∧ ([' '] : List Char) ≠ [] ∧
      ([' '] : List Char).length < 2 := by
  decide

/-- C6 (amended): a text shorter than `chunk_size` yields exactly one chunk,
spanning the whole text and carrying the trimmed text, when the trimmed text
is non-empty; it yields the empty sequence when the text is empty or trims to
whitespace only. -/
theorem chunkText_short_text (text : List Char) (cs ov : ℕ)
    (h : text.length < cs) :
    chunkText text cs ov =
      if pyStrip text = [] then [] else [(0, text.length, pyStrip text)] := by
  unfold chunkText
  rcases Nat.eq_zero_or_pos text.length with h0 | h0
  · have hnil : text = [] := List.eq_nil_of_length_eq_zero h0
    subst hnil
    simp [chunkTextLoop, pyStrip]
  · have hslice : listSlice text 0 text.length = text := by
      simp [listSlice]
    have hmin : min (0 + cs) text.length = text.length := by
      omega
    simp only [chunkTextLoop, h0, if_pos, hmin, hslice]
    rcases eq_or_ne (pyStrip text) [] with hc | hc <;> simp [hc]

/-- C6 witness: a two-character text with `chunk_size = 5` yields exactly one
chunk carrying the whole (already trimmed) text. -/
theorem chunkText_short_text_witness :
    (['h', 'i'] : List Char).length < 5 ∧
      chunkText ['h', 'i'] 5 0 = [(0, 2, ['h', 'i'])] := by
  refine ⟨by decide, ?_⟩
  rw [chunkText_short_text ['h', 'i'] 5 0 (by decide)]
  decide

/-- C2 counterexample: when every semantic candidate scores below the floor
and no fragment contains the query, `rag_answer` returns the plain empty
list — the very same value it returns for an empty index — rather than any
distinct `NoRelevantResults` terminal state. -/
theorem ragAnswer_empty_not_distinct :
    ragAnswer "qq" [0] [[1]] [⟨"f", 0, 3, 0⟩] ["zzz"] (fun _ _ => 0) 5 = [] ∧
    ragAnswer "qq" [] [] [] [] (fun _ _ => 0) 5 = [] := by
  constructor <;>
    norm_num [ragAnswer, retrieve, faissSearch, scoreList, dot, pyIn, pyLower,
      subIn, leadEq, lowerChar, List.insertionSort, List.orderedInsert,
      searchOrd, hitOrd]

/-- C2 (amended): when every stored row scores below the `0.5` floor against
the query vector and no scanned fragment contains the query
case-insensitively, `rag_answer` returns the plain empty list; the code has
no distinct `NoRelevantResults` state. -/
theorem ragAnswer_below_floor_no_exact_empty
    (query : String) (qv : List ℚ) (db : List (List ℚ)) (meta : List Meta)
    (texts : List String) (rr : String → String → ℚ) (topK : ℕ)
    (hfloor : ∀ v ∈ db, dot qv v < 1/2)
    (hexact : ∀ p ∈ meta.zip texts, pyIn query p.2 = false) :
    ragAnswer query qv db meta texts rr topK = [] := by
  unfold ragAnswer
  have hex : (meta.zip texts).filterMap (fun mt =>
      if pyIn query mt.2 then some (⟨mt.1, mt.2, none, 999⟩ : Hit) else none) = [] := by
    rw [List.filterMap_eq_nil_iff]
    intro p hp
    rw [hexact p hp]
    rfl
  have hret : retrieve qv db texts meta topK = [] := by
    unfold retrieve
    rw [List.filterMap_eq_nil_iff]
    intro si hsi
    obtain ⟨i, hi, hsieq⟩ := mem_faissSearch hsi
    have : si.1 < 1/2 := by
      rw [hsieq]
      exact hfloor _ (getD_mem_of_lt db i [] hi)
    rw [if_pos this]
  rw [hex, hret]
  simp

/-- C2 witness: the amended statement at a concrete sub-floor,
no-exact-match input. -/
theorem ragAnswer_below_floor_no_exact_empty_witness :
    (∀ v ∈ [[(1 : ℚ)]], dot [0] v < 1/2) ∧
    (∀ p ∈ ([⟨"f", 0, 3, 0⟩] : List Meta).zip ["zzz"], pyIn "qq" p.2 = false) ∧
    ragAnswer "qq" [0] [[1]] [⟨"f", 0, 3, 0⟩] ["zzz"] (fun _ _ => 7) 5 = [] := by
  have hf : ∀ v ∈ [[(1 : ℚ)]], dot [0] v < 1/2 := by
    norm_num [dot]
  refine ⟨hf, by decide, ?_⟩
  exact ragAnswer_below_floor_no_exact_empty "qq" [0] [[1]] _ _ _ 5 hf (by decide)

/-- C8: re-loading the two artifacts that `build_index` just persisted
returns exactly the built index — the normalized embedding rows unchanged and
the metadata rows and prefixed chunk texts exactly and in order — for any
document set that produced at least one chunk. -/
theorem buildIndex_load_round_trip (docs : List Doc) (cs ov : ℕ)
    (embed : String → List ℝ)
    (h : (buildIndexData docs cs ov).2 ≠ []) :
    buildIndexFiles docs cs ov embed =
      .ok (some ((buildIndexData docs cs ov).2.map (fun t => normalizeL2 (embed t))),
        some ((buildIndexData docs cs ov).1, (buildIndexData docs cs ov).2)) ∧
    loadIndex
        (some ((buildIndexData docs cs ov).2.map (fun t => normalizeL2 (embed t))))
        (some ((buildIndexData docs cs ov).1, (buildIndexData docs cs ov).2)) =
      .ok ((buildIndexData docs cs ov).2.map (fun t => normalizeL2 (embed t)),
        (buildIndexData docs cs ov).1, (buildIndexData docs cs ov).2) := by
  constructor
  · unfold buildIndexFiles
    rw [if_neg h]
  · rfl

/-- C8 witness: the round trip at a one-document corpus. -/
theorem buildIndex_load_round_trip_witness :
    (buildIndexData [⟨"a.docx", "a", "hello"⟩] 10 0).2 ≠ [] ∧
    (buildIndexFiles [⟨"a.docx", "a", "hello"⟩] 10 0 (fun _ => [1]) =
      .ok (some ((buildIndexData [⟨"a.docx", "a", "hello"⟩] 10 0).2.map
          (fun t => normalizeL2 ((fun _ => [1]) t))),
        some ((buildIndexData [⟨"a.docx", "a", "hello"⟩] 10 0).1,
          (buildIndexData [⟨"a.docx", "a", "hello"⟩] 10 0).2)) ∧
    loadIndex
        (some ((buildIndexData [⟨"a.docx", "a", "hello"⟩] 10 0).2.map
          (fun t => normalizeL2 ((fun _ => [1]) t))))
        (some ((buildIndexData [⟨"a.docx", "a", "hello"⟩] 10 0).1,
          (buildIndexData [⟨"a.docx", "a", "hello"⟩] 10 0).2)) =
      .ok ((buildIndexData [⟨"a.docx", "a", "hello"⟩] 10 0).2.map
          (fun t => normalizeL2 ((fun _ => [1]) t)),
        (buildIndexData [⟨"a.docx", "a", "hello"⟩] 10 0).1,
        (buildIndexData [⟨"a.docx", "a", "hello"⟩] 10 0).2)) :=
  ⟨by decide, buildIndex_load_round_trip [⟨"a.docx", "a", "hello"⟩] 10 0
    (fun _ => [1]) (by decide)⟩

/-- C7: `retrieve` returns at most `k` results, in non-increasing score
order; the underlying search output additionally breaks ties by insertion
order; every returned score is at least the `0.5` floor; and for `k = 1` any
returned result attains the maximum inner product over the whole index. -/
theorem retrieve_ranking_spec (qv : List ℚ) (db : List (List ℚ))
    (texts : List String) (meta : List Meta) (k : ℕ) :
    (retrieve qv db texts meta k).length ≤ k ∧
    List.Pairwise (fun a b : RetHit => b.score ≤ a.score)
      (retrieve qv db texts meta k) ∧
    (∀ r ∈ retrieve qv db texts meta k, 1/2 ≤ r.score) ∧
    List.Pairwise searchOrd (faissSearch db qv k) ∧
    (k = 1 → ∀ r ∈ retrieve qv db texts meta k, ∀ v ∈ db, dot qv v ≤ r.score) := by
  have hsorted : List.Pairwise searchOrd
      (List.insertionSort searchOrd (scoreList qv db)) :=
    List.sorted_insertionSort searchOrd (scoreList qv db)
  have hPairTake : List.Pairwise searchOrd (faissSearch db qv k) :=
    List.Pairwise.sublist (List.take_sublist _ _) hsorted
  have hrw : retrieve qv db texts meta k =
      ((faissSearch db qv k).filter fun si => decide ¬ (si.1 < 1/2)).map
        (fun si => (⟨si.1, texts.getD si.2 "", meta.getD si.2 ⟨"", 0, 0, 0⟩⟩ :
          RetHit)) := by
    unfold retrieve
    exact filterMap_dropIf _ _ _
  refine ⟨?_, ?_, ?_, hPairTake, ?_⟩
  · rw [hrw, List.length_map]
    calc ((faissSearch db qv k).filter fun si => decide ¬ (si.1 < 1/2)).length
        ≤ (faissSearch db qv k).length := List.length_filter_le _ _
      _ ≤ k := List.length_take_le _ _
  · rw [hrw]
    rw [List.pairwise_map]
    refine (hPairTake.filter _).imp ?_
    intro a b hab
    rcases hab with h | ⟨h, _⟩
    · exact le_of_lt h
    · exact le_of_eq h.symm
  · intro r hr
    rw [hrw] at hr
    obtain ⟨si, hsi, hgr⟩ := List.mem_map.1 hr
    have h2 := (List.mem_filter.1 hsi).2
    have h3 : ¬ (si.1 < 1/2) := by simpa using h2
    rw [← hgr]
    exact le_of_not_lt h3
  · intro hk r hr v hv
    subst hk
    rw [hrw] at hr
    obtain ⟨si, hsi, hgr⟩ := List.mem_map.1 hr
    have hsi2 : si ∈ faissSearch db qv 1 := (List.mem_filter.1 hsi).1
    obtain ⟨i, hi, hd, hmemscore⟩ := scoreList_of_mem (q := qv) hv
    have hmemsorted : (dot qv v, i) ∈
        List.insertionSort searchOrd (scoreList qv db) :=
      ((List.perm_insertionSort searchOrd _).mem_iff).2 hmemscore
    cases hsort : List.insertionSort searchOrd (scoreList qv db) with
    | nil =>
      rw [hsort] at hmemsorted
      exact absurd hmemsorted (List.not_mem_nil _)
    | cons hd0 tl0 =>
      have htake : faissSearch db qv 1 = [hd0] := by
        unfold faissSearch
        rw [hsort]
        rfl
      rw [htake] at hsi2
      have hsihd : si = hd0 := by simpa using hsi2
      rw [hsort] at hmemsorted
      have hmax : ∀ x ∈ hd0 :: tl0, x.1 ≤ hd0.1 := by
        refine pairwise_head_key_max (fun x => x.1) searchOrd ?_ ?_
        · intro a b hab
          rcases hab with h | ⟨h, _⟩
          · exact le_of_lt h
          · exact le_of_eq h.symm
        · rw [← hsort]; exact hsorted
      have := hmax _ hmemsorted
      rw [← hgr, hsihd]
      exact this

/-- C7 witness: the specification instantiated at a concrete index and
query. -/
theorem retrieve_ranking_spec_witness :
    (retrieve [1] [[0], [1]] ["t0", "t1"] [⟨"f", 0, 3, 0⟩, ⟨"f", 0, 3, 1⟩] 1).length ≤ 1 ∧
    List.Pairwise (fun a b : RetHit => b.score ≤ a.score)
      (retrieve [1] [[0], [1]] ["t0", "t1"] [⟨"f", 0, 3, 0⟩, ⟨"f", 0, 3, 1⟩] 1) ∧
    (∀ r ∈ retrieve [1] [[0], [1]] ["t0", "t1"] [⟨"f", 0, 3, 0⟩, ⟨"f", 0, 3, 1⟩] 1,
      1/2 ≤ r.score) ∧
    List.Pairwise searchOrd (faissSearch [[0], [1]] [1] 1) ∧
    ((1 : ℕ) = 1 →
      ∀ r ∈ retrieve [1] [[0], [1]] ["t0", "t1"] [⟨"f", 0, 3, 0⟩, ⟨"f", 0, 3, 1⟩] 1,
        ∀ v ∈ [[(0 : ℚ)], [1]], dot [1] v ≤ r.score) :=
  retrieve_ranking_spec [1] [[0], [1]] ["t0", "t1"]
    [⟨"f", 0, 3, 0⟩, ⟨"f", 0, 3, 1⟩] 1

/-- C10 counterexample: the score is the number of keyword-list entries that
occur in the document, with repetitions — the query "cat cat" scores `2`
against a document containing "cat", while the number of distinct keywords
occurring is `1`. -/
theorem searchDocuments_counts_duplicate_keywords :
    (searchDocuments true [⟨"f", "p", "a cat", 5⟩] (fun _ _ => "") "cat cat").map
        (fun r => r.score) = [2] ∧
    ((keywords "cat cat").dedup.filter
        (fun w => subIn w (pyLower "a cat"))).length = 1 := by
  decide

/-- C10 (amended): `search_documents` returns at most 3 results, sorted in
non-increasing score order; each result's score counts, with repetitions, the
entries of the keyword list (lowercased whitespace-separated words longer
than 2 characters) that occur in the document's lowercased text, and is at
least 1; and the result is empty whenever documents are not loaded. -/
theorem searchDocuments_spec (loaded : Bool) (documents : List BotDoc)
    (snip : String → List (List Char) → String) (query : String) :
    (searchDocuments loaded documents snip query).length ≤ 3 ∧
    List.Pairwise resOrd (searchDocuments loaded documents snip query) ∧
    (∀ r ∈ searchDocuments loaded documents snip query,
      r.score = ((keywords query).filter
        (fun w => subIn w (pyLower r.fullText))).length ∧ 1 ≤ r.score) ∧
    (loaded = false ∨ documents = [] →
      searchDocuments loaded documents snip query = []) := by
  by_cases hcond : (!loaded || documents.isEmpty) = true
  · have hres : searchDocuments loaded documents snip query = [] := by
      unfold searchDocuments
      rw [if_pos hcond]
    rw [hres]
    refine ⟨by simp, by simp, by simp, fun _ => rfl⟩
  · have hres : searchDocuments loaded documents snip query =
        (List.insertionSort resOrd (documents.filterMap (fun d =>
          if 0 < ((keywords query).filter
              (fun w => subIn w (pyLower d.text))).length then
            some (⟨d.file, d.path, snip d.text (keywords query), d.text,
              ((keywords query).filter
                (fun w => subIn w (pyLower d.text))).length⟩ : SearchResult)
          else none))).take 3 := by
      unfold searchDocuments
      rw [if_neg hcond]
    have hsorted : List.Pairwise resOrd
        (List.insertionSort resOrd (documents.filterMap (fun d =>
          if 0 < ((keywords query).filter
              (fun w => subIn w (pyLower d.text))).length then
            some (⟨d.file, d.path, snip d.text (keywords query), d.text,
              ((keywords query).filter
                (fun w => subIn w (pyLower d.text))).length⟩ : SearchResult)
          else none))) :=
      List.sorted_insertionSort resOrd _
    refine ⟨?_, ?_, ?_, ?_⟩
    · rw [hres]
      exact List.length_take_le _ _
    · rw [hres]
      exact List.Pairwise.sublist (List.take_sublist _ _) hsorted
    · intro r hr
      rw [hres] at hr
      have hr2 := (List.take_sublist _ _).mem hr
      have hr3 := ((List.perm_insertionSort resOrd _).mem_iff).1 hr2
      obtain ⟨d, _, hif⟩ := List.mem_filterMap.1 hr3
      by_cases hp : 0 < ((keywords query).filter
          (fun w => subIn w (pyLower d.text))).length
      · rw [if_pos hp] at hif
        obtain rfl := Option.some_injective _ hif
        exact ⟨rfl, hp⟩
      · rw [if_neg hp] at hif
        exact absurd hif (by simp)
    · rintro (rfl | rfl)
      · simp at hcond
      · simp at hcond

/-- C10 witness: the not-loaded branch instantiated concretely. -/
theorem searchDocuments_spec_witness :
    (searchDocuments false [⟨"f", "p", "a cat", 5⟩] (fun _ _ => "") "cat").length ≤ 3 ∧
    List.Pairwise resOrd (searchDocuments false [⟨"f", "p", "a cat", 5⟩]
      (fun _ _ => "") "cat") ∧
    (∀ r ∈ searchDocuments false [⟨"f", "p", "a cat", 5⟩] (fun _ _ => "") "cat",
      r.score = ((keywords "cat").filter
        (fun w => subIn w (pyLower r.fullText))).length ∧ 1 ≤ r.score) ∧
    (false = false ∨ ([⟨"f", "p", "a cat", 5⟩] : List BotDoc) = [] →
      searchDocuments false [⟨"f", "p", "a cat", 5⟩] (fun _ _ => "") "cat" = []) :=
  searchDocuments_spec false [⟨"f", "p", "a cat", 5⟩] (fun _ _ => "") "cat"

/-- C1 counterexample: the exact-match sentinel is the literal score `999`,
not a maximum — a reranker score of `1000` on a semantic hit pushes it above
the exact match, so the fragment containing the query is not ranked first. -/
theorem ragAnswer_exact_match_not_first :
    pyIn "xa" "xay" = true ∧ pyIn "xa" "zzz" = false ∧
    (ragAnswer "xa" [1] [[0], [1]] [⟨"f", 0, 3, 0⟩, ⟨"f", 0, 3, 1⟩]
        ["xay", "zzz"] (fun _ t => if t = "zzz" then 1000 else 0) 5).head? =
      some ⟨⟨"f", 0, 3, 1⟩, "zzz", some 1, 1000⟩ := by
  refine ⟨by decide, by decide, ?_⟩
  have e1 : pyIn "xa" "xay" = true := by decide
  have e2 : pyIn "xa" "zzz" = false := by decide
  norm_num [ragAnswer, retrieve, faissSearch, scoreList, dot, e1, e2,
    List.insertionSort, List.orderedInsert, searchOrd, hitOrd,
    List.filterMap_cons, List.filterMap_nil]

/-- C1 (amended): provided every cross-encoder score stays below the
sentinel `999` and `top_k ≥ 1`, if the query occurs case-insensitively in
some scanned fragment then the first element of `rag_answer`'s merged result
is an exact-match hit (it contains the query, carries the sentinel `999` and
no semantic score), and the whole result is sorted by non-increasing rerank
score, so every exact hit precedes every semantic hit. -/
theorem ragAnswer_exact_match_first (query : String) (qv : List ℚ)
    (db : List (List ℚ)) (meta : List Meta) (texts : List String)
    (rr : String → String → ℚ) (topK : ℕ)
    (hk : 1 ≤ topK)
    (hrr : ∀ t, rr query t < 999)
    (hex : ∃ p ∈ meta.zip texts, pyIn query p.2 = true) :
    ∃ h rest, ragAnswer query qv db meta texts rr topK = h :: rest ∧
      pyIn query h.text = true ∧ h.rerank = 999 ∧ h.score = none ∧
      List.Pairwise hitOrd (h :: rest) := by
  obtain ⟨p, hp, hpq⟩ := hex
  have hrag : ragAnswer query qv db meta texts rr topK =
      (List.insertionSort hitOrd
        (((meta.zip texts).filterMap (fun mt =>
            if pyIn query mt.2 then some (⟨mt.1, mt.2, none, 999⟩ : Hit)
            else none)) ++
          ((retrieve qv db texts meta topK).map (fun r =>
            (⟨r.meta, r.text, some r.score, rr query r.text⟩ : Hit))))).take
        topK := rfl
  set exactHits := (meta.zip texts).filterMap (fun mt =>
    if pyIn query mt.2 then some (⟨mt.1, mt.2, none, 999⟩ : Hit) else none)
    with hexdef
  set rescored := (retrieve qv db texts meta topK).map (fun r =>
    (⟨r.meta, r.text, some r.score, rr query r.text⟩ : Hit)) with hresdef
  have hmem : (⟨p.1, p.2, none, 999⟩ : Hit) ∈ exactHits :=
    List.mem_filterMap.2 ⟨p, hp, by simp [hpq]⟩
  have hmem2 : (⟨p.1, p.2, none, 999⟩ : Hit) ∈ exactHits ++ rescored :=
    List.mem_append_left _ hmem
  have hmem3 : (⟨p.1, p.2, none, 999⟩ : Hit) ∈
      List.insertionSort hitOrd (exactHits ++ rescored) :=
    ((List.perm_insertionSort hitOrd _).mem_iff).2 hmem2
  cases hsort : List.insertionSort hitOrd (exactHits ++ rescored) with
  | nil =>
    rw [hsort] at hmem3
    exact absurd hmem3 (List.not_mem_nil _)
  | cons h0 t0 =>
    have hsorted : List.Pairwise hitOrd (h0 :: t0) := by
      rw [← hsort]
      exact List.sorted_insertionSort hitOrd _
    have hmax : ∀ x ∈ h0 :: t0, x.rerank ≤ h0.rerank :=
      pairwise_head_key_max (fun x => x.rerank) hitOrd
        (by intro a b hab; exact hab) hsorted
    rw [hsort] at hmem3
    have h999 : (999 : ℚ) ≤ h0.rerank := hmax _ hmem3
    have hh0mem : h0 ∈ exactHits ++ rescored := by
      refine ((List.perm_insertionSort hitOrd _).mem_iff).1 ?_
      rw [hsort]
      exact List.mem_cons_self _ _
    rcases List.mem_append.1 hh0mem with hmemE | hmemR
    · obtain ⟨mt, hmt, hif⟩ := List.mem_filterMap.1 hmemE
      by_cases hc : pyIn query mt.2
      · rw [if_pos hc] at hif
        obtain rfl := Option.some_injective _ hif
        obtain ⟨n, rfl⟩ : ∃ n, topK = n + 1 := ⟨topK - 1, by omega⟩
        refine ⟨⟨mt.1, mt.2, none, 999⟩, t0.take n, ?_, hc, rfl, rfl, ?_⟩
        · rw [hrag, hsort]
          rfl
        · exact List.Pairwise.sublist
            (List.Sublist.cons₂ _ (List.take_sublist n t0)) hsorted
      · rw [if_neg hc] at hif
        exact absurd hif (by simp)
    · obtain ⟨r, hrmem, hreq⟩ := List.mem_map.1 hmemR
      have hrank : h0.rerank = rr query r.text := by rw [← hreq]
      have := hrr r.text
      rw [← hrank] at this
      exact absurd (lt_of_le_of_lt h999 this) (lt_irrefl _)

/-- C1 witness: the amended statement at a one-fragment corpus whose text
contains the query. -/
theorem ragAnswer_exact_match_first_witness :
    (1 : ℕ) ≤ 5 ∧ (∀ t : String, (fun _ _ => (0 : ℚ)) "xa" t < 999) ∧
    (∃ p ∈ ([⟨"f", 0, 3, 0⟩] : List Meta).zip ["xay"], pyIn "xa" p.2 = true) ∧
    (∃ h rest, ragAnswer "xa" [] [] [⟨"f", 0, 3, 0⟩] ["xay"]
        (fun _ _ => (0 : ℚ)) 5 = h :: rest ∧
      pyIn "xa" h.text = true ∧ h.rerank = 999 ∧ h.score = none ∧
      List.Pairwise hitOrd (h :: rest)) := by
  have h1 : (1 : ℕ) ≤ 5 := by decide
  have h2 : ∀ t : String, (fun _ _ => (0 : ℚ)) "xa" t < 999 := by
    intro t
    norm_num
  have h3 : ∃ p ∈ ([⟨"f", 0, 3, 0⟩] : List Meta).zip ["xay"],
      pyIn "xa" p.2 = true := by decide
  exact ⟨h1, h2, h3,
    ragAnswer_exact_match_first "xa" [] [] [⟨"f", 0, 3, 0⟩] ["xay"]
      (fun _ _ => (0 : ℚ)) 5 h1 h2 h3⟩

/-- Unfolding: sum of squares of a cons. -/
theorem sumSq_cons (x : ℝ) (xs : List ℝ) : sumSq (x :: xs) = x * x + sumSq xs := by
  simp [sumSq]

/-- A sum of squares is non-negative. -/
theorem sumSq_nonneg (v : List ℝ) : 0 ≤ sumSq v := by
  induction v with
  | nil => simp [sumSq]
  | cons x xs ih =>
    rw [sumSq_cons]
    exact add_nonneg (mul_self_nonneg x) ih

/-- Dividing every coordinate by `c` divides the sum of squares by `c²`. -/
theorem sumSq_map_div (v : List ℝ) (c : ℝ) :
    sumSq (v.map (fun x => x / c)) = sumSq v / (c * c) := by
  induction v with
  | nil => simp [sumSq]
  | cons x xs ih =>
    rw [List.map_cons, sumSq_cons, sumSq_cons, ih, div_mul_div_comm,
      div_add_div_same]

/-- Normalizing a vector of non-zero norm yields a unit vector. -/
theorem l2norm_normalizeL2 (v : List ℝ) (h : sumSq v ≠ 0) :
    l2norm (normalizeL2 v) = 1 := by
  have hpos : 0 < sumSq v := lt_of_le_of_ne (sumSq_nonneg v) (Ne.symm h)
  unfold normalizeL2
  rw [if_pos hpos]
  unfold l2norm
  rw [sumSq_map_div, Real.mul_self_sqrt (sumSq_nonneg v), div_self h,
    Real.sqrt_one]

/-- C9: every vector `build_index` adds to the index and every query vector
`retrieve` searches with is L2-normalized — its norm is exactly 1 in the real
model — provided the raw sentence embedding is not the zero vector (FAISS's
`normalize_L2` leaves zero rows unchanged, and the external embedding model
is assumed never to emit an exactly-zero vector). -/
theorem embeddings_normalized (embed : String → List ℝ) (texts : List String)
    (q : String) (h : ∀ t, sumSq (embed t) ≠ 0) :
    (∀ v ∈ buildVectors embed texts, l2norm v = 1) ∧
    l2norm (queryVector embed q) = 1 := by
  constructor
  · intro v hv
    obtain ⟨t, _, rfl⟩ := List.mem_map.1 hv
    exact l2norm_normalizeL2 _ (h t)
  · exact l2norm_normalizeL2 _ (h q)

/-- C9 witness: the normalization invariant at the concrete raw embedding
`[3, 4]`. -/
theorem embeddings_normalized_witness :
    (∀ t : String, sumSq ((fun _ => [(3 : ℝ), 4]) t) ≠ 0) ∧
    ((∀ v ∈ buildVectors (fun _ => [(3 : ℝ), 4]) ["a"], l2norm v = 1) ∧
      l2norm (queryVector (fun _ => [(3 : ℝ), 4]) "q") = 1) := by
  have h : ∀ t : String, sumSq ((fun _ => [(3 : ℝ), 4]) t) ≠ 0 := by
    intro t
    norm_num [sumSq]
  exact ⟨h, embeddings_normalized (fun _ => [(3 : ℝ), 4]) ["a"] "q" h⟩

/-- One unfolding step of the chunking loop. -/
theorem chunkTextLoop_succ (text : List Char) (cs ov n start : ℕ) :
    chunkTextLoop text cs ov (n + 1) start =
      if start < text.length then
        (if min (start + cs) text.length = text.length then some []
          else chunkTextLoop text cs ov n (min (start + cs) text.length - ov)).map
          (fun rest =>
            if pyStrip (listSlice text start (min (start + cs) text.length)) = []
            then rest
            else (start, min (start + cs) text.length,
              pyStrip (listSlice text start (min (start + cs) text.length))) ::
                rest)
      else some [] := rfl

/-- Members of a slice are members of the list. -/
theorem mem_of_mem_listSlice {l : List Char} {s e : ℕ} {c : Char}
    (h : c ∈ listSlice l s e) : c ∈ l :=
  ((List.take_sublist _ _).trans (List.drop_sublist _ _)).mem h

/-- Soundness of the chunking loop under the `overlap < chunk_size`
precondition: enough fuel yields a value, and the emitted spans start no
earlier than `start`, are non-empty and inside the text, carry their
stripped slice, strictly increase, overlap by at most `ov`, and cover every
position after `start` except whitespace positions. -/
theorem chunkTextLoop_sound (text : List Char) (cs ov : ℕ) (hov : ov < cs) :
    ∀ fuel start, text.length - start < fuel →
    ∃ cks, chunkTextLoop text cs ov fuel start = some cks ∧
      (∀ x ∈ cks, start ≤ x.1 ∧ x.1 < x.2.1 ∧ x.2.1 ≤ text.length ∧
        x.2.2 = pyStrip (listSlice text x.1 x.2.1) ∧ x.2.2 ≠ []) ∧
      List.Chain' (fun a b => a.1 < b.1 ∧ a.2.1 - ov ≤ b.1) cks ∧
      (∀ i, start ≤ i → i < text.length →
        (∃ x ∈ cks, x.1 ≤ i ∧ i < x.2.1) ∨ pyIsSpace (text.getD i ' ') = true) := by
  intro fuel
  induction fuel with
  | zero =>
    intro start h
    exact absurd h (by omega)
  | succ n ih =>
    intro start hfuel
    by_cases hs : start < text.length
    · rw [chunkTextLoop_succ, if_pos hs]
      set e := min (start + cs) text.length with he
      have hcs1 : 1 ≤ cs := by omega
      have he1 : start < e := by omega
      have he2 : e ≤ text.length := by omega
      by_cases hE : e = text.length
      · rw [if_pos hE]
        by_cases hcc : pyStrip (listSlice text start e) = []
        · refine ⟨[], by simp [hcc], ?_, List.chain'_nil, ?_⟩
          · intro x hx
            exact absurd hx (List.not_mem_nil x)
          · intro i hi1 hi2
            right
            have hmem : text.getD i ' ' ∈ listSlice text start e :=
              getD_mem_listSlice hi1 (by omega) he2
            exact pyStrip_eq_nil_all_space hcc _ hmem
        · refine ⟨[(start, e, pyStrip (listSlice text start e))],
            by simp [hcc], ?_, by simp, ?_⟩
          · intro x hx
            rw [List.mem_singleton] at hx
            subst hx
            exact ⟨le_refl _, he1, he2, rfl, hcc⟩
          · intro i hi1 hi2
            left
            exact ⟨(start, e, pyStrip (listSlice text start e)),
              List.mem_singleton.2 rfl, hi1, show i < e by omega⟩
      · rw [if_neg hE]
        have heL : e < text.length := by omega
        have hecs : e = start + cs := by omega
        have hlt : start < e - ov := by omega
        have hfuel2 : text.length - (e - ov) < n := by omega
        obtain ⟨rest, hrest, hrprop, hrchain, hrcov⟩ := ih (e - ov) hfuel2
        rw [hrest]
        by_cases hcc : pyStrip (listSlice text start e) = []
        · refine ⟨rest, by simp [hcc], ?_, hrchain, ?_⟩
          · intro x hx
            obtain ⟨h1, h2, h3, h4, h5⟩ := hrprop x hx
            exact ⟨by omega, h2, h3, h4, h5⟩
          · intro i hi1 hi2
            by_cases hie : i < e
            · right
              have hmem : text.getD i ' ' ∈ listSlice text start e :=
                getD_mem_listSlice hi1 hie he2
              exact pyStrip_eq_nil_all_space hcc _ hmem
            · exact hrcov i (by omega) hi2
        · refine ⟨(start, e, pyStrip (listSlice text start e)) :: rest,
            by simp [hcc], ?_, ?_, ?_⟩
          · intro x hx
            rcases List.mem_cons.1 hx with rfl | hx2
            · exact ⟨le_refl _, he1, le_of_lt heL, rfl, hcc⟩
            · obtain ⟨h1, h2, h3, h4, h5⟩ := hrprop x hx2
              exact ⟨by omega, h2, h3, h4, h5⟩
          · rw [List.chain'_cons']
            refine ⟨?_, hrchain⟩
            intro b hb
            have hbmem : b ∈ rest := List.mem_of_mem_head? hb
            obtain ⟨h1, _⟩ := hrprop b hbmem
            exact ⟨show start < b.1 by omega, show e - ov ≤ b.1 by omega⟩
          · intro i hi1 hi2
            by_cases hie : i < e
            · left
              exact ⟨(start, e, pyStrip (listSlice text start e)),
                List.mem_cons_self _ _, hi1, hie⟩
            · rcases hrcov i (by omega) hi2 with ⟨x, hx, hxi⟩ | hsp
              · left
                exact ⟨x, List.mem_cons_of_mem _ hx, hxi⟩
              · right
                exact hsp
    · rw [chunkTextLoop_succ, if_neg hs]
      refine ⟨[], rfl, ?_, List.chain'_nil, ?_⟩
      · intro x hx
        exact absurd hx (List.not_mem_nil x)
      · intro i hi1 hi2
        exact absurd hi2 (by omega)

/-- Stripping a slice of a whitespace-free text is the identity. -/
theorem listSlice_nospace_strip {text : List Char} {s e : ℕ}
    (hns : ∀ ch ∈ text, pyIsSpace ch = false) :
    pyStrip (listSlice text s e) = listSlice text s e :=
  pyStrip_id (fun c hc => hns c (mem_of_mem_listSlice hc))

/-- A slice over a non-empty in-bounds span is non-empty. -/
theorem listSlice_ne_nil {text : List Char} {s e : ℕ}
    (h1 : s < e) (h2 : e ≤ text.length) : listSlice text s e ≠ [] := by
  intro h
  have hlen := listSlice_length (l := text) (s := s) h2
  rw [h] at hlen
  simp at hlen
  omega

/-- On whitespace-free text no window is dropped: the loop emits exactly the
walked windows, consecutive spans overlap by exactly `ov`, and the head span
starts at `start`. -/
theorem chunkTextLoop_nospace (text : List Char) (cs ov : ℕ) (hov : ov < cs)
    (hns : ∀ ch ∈ text, pyIsSpace ch = false) :
    ∀ fuel start, text.length - start < fuel →
    ∃ cks, chunkTextLoop text cs ov fuel start = some cks ∧
      (start < text.length →
        ∃ rest, cks = (start, min (start + cs) text.length,
          pyStrip (listSlice text start (min (start + cs) text.length))) ::
            rest) ∧
      (¬ start < text.length → cks = []) ∧
      List.Chain' (fun a b => b.1 = a.2.1 - ov) cks := by
  intro fuel
  induction fuel with
  | zero =>
    intro start h
    exact absurd h (by omega)
  | succ n ih =>
    intro start hfuel
    by_cases hs : start < text.length
    · rw [chunkTextLoop_succ, if_pos hs]
      set e := min (start + cs) text.length with he
      have he1 : start < e := by omega
      have he2 : e ≤ text.length := by omega
      have hcc : pyStrip (listSlice text start e) ≠ [] := by
        rw [listSlice_nospace_strip hns]
        exact listSlice_ne_nil he1 he2
      by_cases hE : e = text.length
      · rw [if_pos hE]
        refine ⟨[(start, e, pyStrip (listSlice text start e))],
          by simp [hcc], ?_, ?_, by simp⟩
        · intro _
          exact ⟨[], rfl⟩
        · intro h
          exact absurd hs h
      · rw [if_neg hE]
        have heL : e < text.length := by omega
        have hfuel2 : text.length - (e - ov) < n := by omega
        obtain ⟨rest, hrest, hrpos, hrneg, hrchain⟩ := ih (e - ov) hfuel2
        rw [hrest]
        refine ⟨(start, e, pyStrip (listSlice text start e)) :: rest,
          by simp [hcc], ?_, ?_, ?_⟩
        · intro _
          exact ⟨rest, rfl⟩
        · intro h
          exact absurd hs h
        · rw [List.chain'_cons']
          refine ⟨?_, hrchain⟩
          intro b hb
          have hlt2 : e - ov < text.length := by omega
          obtain ⟨rest2, hr2⟩ := hrpos hlt2
          rw [hr2] at hb
          simp only [List.head?_cons, Option.mem_def, Option.some_inj] at hb
          subst hb
          rfl
    · rw [chunkTextLoop_succ, if_neg hs]
      exact ⟨[], rfl, fun h => absurd h hs, fun _ => rfl, List.chain'_nil⟩

/-- C5 (amended): for `0 ≤ overlap < chunk_size`, every emitted span is
non-empty, lies inside the text and carries its stripped slice as non-empty
text; spans strictly increase in start and consecutive spans overlap by at
most the configured overlap; every text position is covered by some span or
holds a whitespace character (whitespace-only windows are dropped, so exact
coverage can fail there); and on whitespace-free text consecutive spans
overlap by exactly the configured overlap and the spans cover `[0, len)`
completely. -/
theorem chunkText_spans_spec (text : List Char) (cs ov : ℕ) (hov : ov < cs) :
    (∀ x ∈ chunkText text cs ov, x.1 < x.2.1 ∧ x.2.1 ≤ text.length ∧
      x.2.2 = pyStrip (listSlice text x.1 x.2.1) ∧ x.2.2 ≠ []) ∧
    List.Chain' (fun a b => a.1 < b.1 ∧ a.2.1 - ov ≤ b.1)
      (chunkText text cs ov) ∧
    (∀ i, i < text.length →
      (∃ x ∈ chunkText text cs ov, x.1 ≤ i ∧ i < x.2.1) ∨
        pyIsSpace (text.getD i ' ') = true) ∧
    ((∀ ch ∈ text, pyIsSpace ch = false) →
      List.Chain' (fun a b => b.1 = a.2.1 - ov) (chunkText text cs ov) ∧
      ∀ i, i < text.length →
        ∃ x ∈ chunkText text cs ov, x.1 ≤ i ∧ i < x.2.1) := by
  obtain ⟨cks, hck, hprop, hchain, hcov⟩ :=
    chunkTextLoop_sound text cs ov hov (text.length + 1) 0 (by omega)
  have hct : chunkText text cs ov = cks := by
    unfold chunkText
    rw [hck]
    rfl
  refine ⟨?_, ?_, ?_, ?_⟩
  · intro x hx
    rw [hct] at hx
    obtain ⟨_, h2, h3, h4, h5⟩ := hprop x hx
    exact ⟨h2, h3, h4, h5⟩
  · rw [hct]
    exact hchain
  · intro i hi
    rw [hct]
    exact hcov i (Nat.zero_le i) hi
  · intro hns
    obtain ⟨cks2, hck2, _, _, hchain2⟩ :=
      chunkTextLoop_nospace text cs ov hov hns (text.length + 1) 0 (by omega)
    rw [hck] at hck2
    have hcks : cks2 = cks := Option.some_injective _ hck2.symm
    constructor
    · rw [hct, ← hcks]
      exact hchain2
    · intro i hi
      rw [hct]
      rcases hcov i (Nat.zero_le i) hi with h | hsp
      · exact h
      · have hmem : text.getD i ' ' ∈ text := getD_mem_of_lt text i ' ' hi
        rw [hns _ hmem] at hsp
        exact absurd hsp (by simp)

/-- C5 counterexample: on `"a "` with `chunk_size = 1`, `overlap = 0`, the
whitespace-only second window is dropped, so the emitted spans do not cover
`[0, 2)` — position 1 is in no span. -/
theorem chunkText_coverage_fails_on_whitespace :
    chunkText ['a', ' '] 1 0 = [(0, 1, ['a'])] ∧
    (['a', ' '] : List Char).length = 2 ∧
    ¬ ∃ x ∈ chunkText ['a', ' '] 1 0, x.1 ≤ 1 ∧ 1 < x.2.1 := by
  decide

/-- C5 witness: the amended statement at the whitespace-free text `"abc"`
with `chunk_size = 2`, `overlap = 1`. -/
theorem chunkText_spans_spec_witness :
    (1 : ℕ) < 2 ∧
    ((∀ x ∈ chunkText ['a', 'b', 'c'] 2 1, x.1 < x.2.1 ∧
        x.2.1 ≤ (['a', 'b', 'c'] : List Char).length ∧
        x.2.2 = pyStrip (listSlice ['a', 'b', 'c'] x.1 x.2.1) ∧ x.2.2 ≠ []) ∧
      List.Chain' (fun a b => a.1 < b.1 ∧ a.2.1 - 1 ≤ b.1)
        (chunkText ['a', 'b', 'c'] 2 1) ∧
      (∀ i, i < (['a', 'b', 'c'] : List Char).length →
        (∃ x ∈ chunkText ['a', 'b', 'c'] 2 1, x.1 ≤ i ∧ i < x.2.1) ∨
          pyIsSpace ((['a', 'b', 'c'] : List Char).getD i ' ') = true) ∧
      ((∀ ch ∈ (['a', 'b', 'c'] : List Char), pyIsSpace ch = false) →
        List.Chain' (fun a b => b.1 = a.2.1 - 1)
          (chunkText ['a', 'b', 'c'] 2 1) ∧
        ∀ i, i < (['a', 'b', 'c'] : List Char).length →
          ∃ x ∈ chunkText ['a', 'b', 'c'] 2 1, x.1 ≤ i ∧ i < x.2.1)) :=
  ⟨by decide, chunkText_spans_spec ['a', 'b', 'c'] 2 1 (by decide)⟩
